import Mathlib

/-!
Verification of the crawl-partition-retry-ingest engine of `fmp-storage`.

The definitions below are a shallow embedding of the Python source:

* `core/components/economic_events/crawler.py` (`EconomicEventsCrawler`)
* `core/components/forex_data/crawler.py` (`ForexDataCSVCrawler`)
* `core/components/economic_events/client.py` (`EconomicEventsClient`)
* `core/components/economic_events/models.py` (`Event`)
* `core/components/crawler.py` (`BaseCrawler`)

Work units are kept abstract (a type `α` with decidable equality): for the
economic-events crawler a unit is a date range, for the forex crawler a
ticker symbol; both crawlers manipulate their unit lists with the same
code shape.
-/

namespace FmpStorage

open scoped List

/-! ## Work-domain bookkeeping (`_remove_dates` / `_remove_tickers`) -/

/-- Embedding of `EconomicEventsCrawler._remove_dates`: the Python first
sets `self._date_ranges = []` when the removed list equals the current
list, then rebuilds the list keeping entries not contained in `dates`. -/
def remove_dates {α : Type} [DecidableEq α] (dateRanges dates : List α) : List α :=
  let dr := if dates = dateRanges then [] else dateRanges
  dr.filter (fun d => decide (d ∉ dates))

/-- Embedding of `ForexDataCSVCrawler._remove_tickers`; the Python body is
identical to `_remove_dates` up to renaming. -/
def remove_tickers {α : Type} [DecidableEq α] (tickersList tickers : List α) : List α :=
  let tl := if tickers = tickersList then [] else tickersList
  tl.filter (fun d => decide (d ∉ tickers))

/-- Embedding of `iteration_done` (both crawlers): the remaining unit list
has length zero. -/
def iteration_done {α : Type} (remaining : List α) : Bool :=
  decide (remaining.length = 0)

/-- Embedding of `percentage_done` (both crawlers):
`(original_count - len(remaining)) / original_count`, as a rational. -/
def percentage_done {α : Type} (originalCount : ℕ) (remaining : List α) : ℚ :=
  ((originalCount : ℚ) - remaining.length) / originalCount

/-! ## Batch selection (`crawl`)

`EconomicEventsCrawler.crawl` draws `dates_q = random.randint(2, 5)`; if at
most 5 date ranges remain it takes them all, otherwise it takes a
`random.sample` of `dates_q` of them.  `ForexDataCSVCrawler.crawl` does the
same with `random.randint(3, 6)` and threshold 6.  `random.sample` picks
distinct positions, so the drawn batch is a sub-permutation of the
remaining list.  The randomness is abstracted into a predicate saying which
batches the code can draw. -/

/-- A batch the `crawl` methods can draw from `remaining`: the whole
remainder when `remaining.length ≤ maxWhole` (threshold 5 for date ranges,
6 for tickers), otherwise a `random.sample` of a size in `[lo, hi]`
(`[2,5]` for date ranges, `[3,6]` for tickers). -/
def is_batch {α : Type} (maxWhole lo hi : ℕ) (remaining batch : List α) : Prop :=
  if remaining.length ≤ maxWhole then batch = remaining
  else batch <+~ remaining ∧ lo ≤ batch.length ∧ batch.length ≤ hi

instance {α : Type} [DecidableEq α] (maxWhole lo hi : ℕ) (remaining batch : List α) :
    Decidable (is_batch maxWhole lo hi remaining batch) := by
  unfold is_batch
  infer_instance

/-- One full traversal of a work domain, as driven by
`EconomicEventsClient.update_for_dates` (`while not crawler.iteration_done:
crawler.crawl()`) resp. the `while self._tickers:` loop of
`ForexDataCSVCrawler.crawl`: starting from `remaining`, repeatedly draw a
batch and remove it until nothing is left.  The list collects the batches
drawn, in order. -/
inductive CrawlRun {α : Type} [DecidableEq α] (maxWhole lo hi : ℕ) :
    List α → List (List α) → Prop where
  | done : CrawlRun maxWhole lo hi [] []
  | step : ∀ (rem batch : List α) (batches : List (List α)), rem ≠ [] →
      is_batch maxWhole lo hi rem batch →
      CrawlRun maxWhole lo hi (remove_dates rem batch) batches →
      CrawlRun maxWhole lo hi rem (batch :: batches)

/-! ## Basic lemmas about removal and batches -/

theorem remove_dates_eq_filter {α : Type} [DecidableEq α] (rem batch : List α) :
    remove_dates rem batch = rem.filter (fun d => decide (d ∉ batch)) := by
  unfold remove_dates
  by_cases h : batch = rem
  · subst h
    simp [List.filter_eq_nil_iff]
  · simp [h]

theorem remove_tickers_eq_remove_dates {α : Type} [DecidableEq α] (rem batch : List α) :
    remove_tickers rem batch = remove_dates rem batch := rfl

theorem mem_remove_dates {α : Type} [DecidableEq α] {rem batch : List α} {a : α} :
    a ∈ remove_dates rem batch ↔ a ∈ rem ∧ a ∉ batch := by
  rw [remove_dates_eq_filter, List.mem_filter]
  simp

theorem count_remove_dates {α : Type} [DecidableEq α] (rem batch : List α) (a : α) :
    (remove_dates rem batch).count a = if a ∈ batch then 0 else rem.count a := by
  rw [remove_dates_eq_filter]
  by_cases h : a ∈ batch
  · simp only [h, if_true]
    rw [List.count_eq_zero]
    intro hmem
    rw [List.mem_filter] at hmem
    simpa [h] using hmem.2
  · simp only [h, if_false]
    rw [List.count_filter]
    simp [h]

theorem remove_dates_length_le {α : Type} [DecidableEq α] (rem batch : List α) :
    (remove_dates rem batch).length ≤ rem.length := by
  rw [remove_dates_eq_filter]
  exact List.length_filter_le _ _

theorem is_batch_subset {α : Type} {maxWhole lo hi : ℕ} {rem batch : List α}
    (h : is_batch maxWhole lo hi rem batch) : batch ⊆ rem := by
  unfold is_batch at h
  split at h
  · subst h; exact fun _ ha => ha
  · exact h.1.subset

theorem is_batch_subperm {α : Type} {maxWhole lo hi : ℕ} {rem batch : List α}
    (h : is_batch maxWhole lo hi rem batch) : batch <+~ rem := by
  unfold is_batch at h
  split at h
  · subst h; exact List.Subperm.refl _
  · exact h.1

/-! ## The partition property -/

theorem crawlRun_batch_subset {α : Type} [DecidableEq α] {maxWhole lo hi : ℕ}
    {rem : List α} {batches : List (List α)}
    (h : CrawlRun maxWhole lo hi rem batches) :
    ∀ b ∈ batches, ∀ a ∈ b, a ∈ rem := by
  induction h with
  | done => intro b hb; simp at hb
  | step rem batch batches hne hb hrun ih =>
    intro b hmem a ha
    rcases List.mem_cons.mp hmem with h1 | h1
    · subst h1; exact is_batch_subset hb ha
    · exact (mem_remove_dates.mp (ih b h1 a ha)).1

theorem crawlRun_mem_iff {α : Type} [DecidableEq α] {maxWhole lo hi : ℕ}
    {rem : List α} {batches : List (List α)}
    (h : CrawlRun maxWhole lo hi rem batches) :
    ∀ a, a ∈ rem ↔ ∃ b ∈ batches, a ∈ b := by
  induction h with
  | done => simp
  | step rem batch batches hne hb hrun ih =>
    intro a
    constructor
    · intro ha
      by_cases hab : a ∈ batch
      · exact ⟨batch, List.mem_cons_self _ _, hab⟩
      · have : a ∈ remove_dates rem batch := mem_remove_dates.mpr ⟨ha, hab⟩
        obtain ⟨b, hbmem, hab'⟩ := (ih a).mp this
        exact ⟨b, List.mem_cons_of_mem _ hbmem, hab'⟩
    · rintro ⟨b, hbmem, hab⟩
      rcases List.mem_cons.mp hbmem with h1 | h1
      · subst h1; exact is_batch_subset hb hab
      · exact (mem_remove_dates.mp ((ih a).mpr ⟨b, h1, hab⟩)).1

theorem crawlRun_later_disjoint {α : Type} [DecidableEq α] {maxWhole lo hi : ℕ}
    {rem batch : List α} {batches : List (List α)}
    (h : CrawlRun maxWhole lo hi rem (batch :: batches)) :
    ∀ b ∈ batches, ∀ a ∈ batch, a ∉ b := by
  cases h with
  | step _ _ _ hne hb hrun =>
    intro b hbmem a ha hab
    have : a ∈ remove_dates rem batch := crawlRun_batch_subset hrun b hbmem a hab
    exact (mem_remove_dates.mp this).2 ha

theorem crawlRun_nodup_preserved {α : Type} [DecidableEq α]
    {rem batch : List α} (hnd : rem.Nodup) : (remove_dates rem batch).Nodup := by
  rw [remove_dates_eq_filter]
  exact hnd.filter _

/-- The concatenation of the batches of a full crawl run is a permutation
of the original domain, provided the domain has no duplicate units. -/
theorem crawlRun_join_perm {α : Type} [DecidableEq α] {maxWhole lo hi : ℕ}
    {rem : List α} {batches : List (List α)}
    (h : CrawlRun maxWhole lo hi rem batches) (hnd : rem.Nodup) :
    batches.flatten ~ rem := by
  induction h with
  | done => simp
  | step rem batch batches hne hb hrun ih =>
    have hrem' : (remove_dates rem batch).Nodup := crawlRun_nodup_preserved hnd
    have htail : batches.flatten ~ remove_dates rem batch := ih hrem'
    rw [List.flatten_cons]
    have hperm : batch ++ remove_dates rem batch ~ rem := by
      rw [remove_dates_eq_filter]
      have hbatch_nd : batch.Nodup := by
        obtain ⟨l, hp, hs⟩ := is_batch_subperm hb
        exact hp.nodup (hnd.sublist hs)
      have hfilter : rem.filter (fun d => decide (d ∈ batch)) ~ batch := by
        apply (List.perm_ext_iff_of_nodup (hnd.filter _) hbatch_nd).mpr
        intro a
        rw [List.mem_filter]
        constructor
        · rintro ⟨_, h2⟩; simpa using h2
        · intro ha; exact ⟨is_batch_subset hb ha, by simpa using ha⟩
      have hstep : batch ++ rem.filter (fun d => decide (d ∉ batch))
          ~ rem.filter (fun d => decide (d ∈ batch)) ++
            rem.filter (fun d => decide (d ∉ batch)) :=
        hfilter.symm.append_right _
      refine hstep.trans ?_
      have := List.filter_append_perm (fun d => decide (d ∈ batch)) rem
      simpa [decide_not] using this
    exact (htail.append_left batch).trans hperm

theorem crawlRun_pairwise_disjoint {α : Type} [DecidableEq α] {maxWhole lo hi : ℕ}
    {rem : List α} {batches : List (List α)}
    (h : CrawlRun maxWhole lo hi rem batches) :
    batches.Pairwise (fun b₁ b₂ => ∀ a ∈ b₁, a ∉ b₂) := by
  induction h with
  | done => exact List.Pairwise.nil
  | step rem batch batches hne hb hrun ih =>
    refine List.pairwise_cons.mpr ⟨?_, ih⟩
    intro b hbmem a ha
    intro hab
    have : a ∈ remove_dates rem batch := crawlRun_batch_subset hrun b hbmem a hab
    exact (mem_remove_dates.mp this).2 ha

/-- C2: for every work domain (no duplicate units, the spec's "ordered
set"), repeatedly drawing batches via `crawl` until `iteration_done`
processes the union of all original units exactly once: the concatenation
of the drawn batches is a permutation of the domain, every unit appears in
some batch, and no unit appears in two different batches (order
unspecified).  Stated for arbitrary batch-size bounds, covering both
`EconomicEventsCrawler` (5, 2, 5) and `ForexDataCSVCrawler` (6, 3, 6). -/
theorem claim_c2_partition {α : Type} [DecidableEq α] (maxWhole lo hi : ℕ)
    (dom : List α) (batches : List (List α))
    (hrun : CrawlRun maxWhole lo hi dom batches) (hnd : dom.Nodup) :
    batches.flatten ~ dom ∧
      (∀ a, a ∈ dom ↔ ∃ b ∈ batches, a ∈ b) ∧
      batches.Pairwise (fun b₁ b₂ => ∀ a ∈ b₁, a ∉ b₂) :=
  ⟨crawlRun_join_perm hrun hnd, crawlRun_mem_iff hrun,
    crawlRun_pairwise_disjoint hrun⟩

/-- Witness for C2 at a concrete domain of seven units: a first sampled
batch of two units followed by the whole remainder. -/
theorem claim_c2_partition_witness :
    CrawlRun 5 2 5 ([0, 1, 2, 3, 4, 5, 6] : List ℕ) [[0, 1], [2, 3, 4, 5, 6]] ∧
      ([[0, 1], [2, 3, 4, 5, 6]] : List (List ℕ)).flatten ~ [0, 1, 2, 3, 4, 5, 6] := by
  have hrun : CrawlRun 5 2 5 ([0, 1, 2, 3, 4, 5, 6] : List ℕ)
      [[0, 1], [2, 3, 4, 5, 6]] := by
    apply CrawlRun.step _ _ _ (by decide) (by decide)
    have h1 : remove_dates ([0, 1, 2, 3, 4, 5, 6] : List ℕ) [0, 1] = [2, 3, 4, 5, 6] := by
      decide
    rw [h1]
    apply CrawlRun.step _ _ _ (by decide) (by decide)
    have h2 : remove_dates ([2, 3, 4, 5, 6] : List ℕ) [2, 3, 4, 5, 6] = [] := by decide
    rw [h2]
    exact CrawlRun.done
  exact ⟨hrun, (claim_c2_partition 5 2 5 _ _ hrun (by decide)).1⟩

/-! ## Bounded retry (`EconomicEventsCrawler._safe_crawl`)

`crawl` sets `self._attempt = 0` and then `_safe_crawl` runs

    while self._attempt < self._max_retries_on_error:
        try: return self._start_crawling(dates_to_crawl)
        except Exception as e:
            self._attempt += 1
            if self._attempt < self._max_retries_on_error:
                time.sleep(20)
            else: raise e

The fetch-and-parse of one batch is abstracted as `fetch : ℕ → Except E R`
giving the outcome of each attempt (attempt counter as argument).  The
embedding returns the number of attempts made, the list of sleeps taken
between attempts, and the final outcome; `none` models the loop body never
running (Python falls through and returns `None`, only possible when
`max_retries = 0`).  The `fuel` argument equals
`max_retries - attempt`, mirroring the loop guard. -/
def safe_crawl_go {E R : Type} (fetch : ℕ → Except E R) (maxRetries : ℕ) :
    ℕ → ℕ → ℕ × List ℕ × Option (Except E R)
  | 0, _ => (0, [], none)
  | fuel + 1, attempt =>
    match fetch attempt with
    | Except.ok r => (1, [], some (Except.ok r))
    | Except.error e =>
      if attempt + 1 < maxRetries then
        let rest := safe_crawl_go fetch maxRetries fuel (attempt + 1)
        (rest.1 + 1, 20 :: rest.2.1, rest.2.2)
      else
        (1, [], some (Except.error e))

/-- Embedding of `_safe_crawl` for one batch: the attempt counter starts
at 0 (set by `crawl`), the loop may run `max_retries` times. -/
def safe_crawl {E R : Type} (fetch : ℕ → Except E R) (maxRetries : ℕ) :
    ℕ × List ℕ × Option (Except E R) :=
  safe_crawl_go fetch maxRetries maxRetries 0

/-- Default of the `max_retries` parameter of `BaseCrawler.__init__`. -/
def default_max_retries : ℕ := 5

/-- Embedding of the batch loop of
`EconomicEventsClient.update_for_dates`: each batch is crawled through
`safe_crawl` with a fresh attempt counter; an error raised by a batch
propagates out of the loop, so later batches are never attempted.
Each element of `fetches` is the attempt-indexed fetch behaviour of one
batch; `none` again models a `None` return of `_safe_crawl`. -/
def crawl_run_result {E R : Type} (maxRetries : ℕ) :
    List (ℕ → Except E R) → Option (Except E (List R))
  | [] => some (Except.ok [])
  | f :: fs =>
    match (safe_crawl f maxRetries).2.2 with
    | none => none
    | some (Except.error e) => some (Except.error e)
    | some (Except.ok r) =>
      match crawl_run_result maxRetries fs with
      | none => none
      | some (Except.error e) => some (Except.error e)
      | some (Except.ok rs) => some (Except.ok (r :: rs))

theorem safe_crawl_go_all_error {E R : Type} (err : ℕ → E) (maxRetries : ℕ) :
    ∀ (fuel attempt : ℕ), 0 < fuel → attempt + fuel = maxRetries →
      safe_crawl_go (E := E) (R := R) (fun i => Except.error (err i))
          maxRetries fuel attempt =
        (fuel, List.replicate (fuel - 1) 20,
          some (Except.error (err (maxRetries - 1)))) := by
  intro fuel
  induction fuel with
  | zero => intro attempt h; omega
  | succ fuel ih =>
    intro attempt hpos hsum
    by_cases hf : 0 < fuel
    · have hlt : attempt + 1 < maxRetries := by omega
      have hrec := ih (attempt + 1) hf (by omega)
      simp only [safe_crawl_go, hlt, if_true, hrec]
      have : 20 :: List.replicate (fuel - 1) 20 = List.replicate fuel 20 := by
        have h1 : fuel = (fuel - 1) + 1 := by omega
        rw [h1, List.replicate_succ]
        simp
      simp [this]
    · have hfz : fuel = 0 := by omega
      subst hfz
      have hlt : ¬(attempt + 1 < maxRetries) := by omega
      have hatt : attempt = maxRetries - 1 := by omega
      simp only [safe_crawl_go, hlt, if_false]
      simp [hatt]

/-- C3: with a fetch session that faults at every attempt, `_safe_crawl`
makes exactly `max_retries` consecutive attempts for the batch, with a
fixed 20-second sleep between consecutive attempts (hence
`max_retries - 1` sleeps) and the attempt counter starting at 0, and after
the `max_retries`-th fault it re-raises the fault; the raised fault
propagates through `update_for_dates`' batch loop, so the whole crawl run
ends with that error no matter what batches would have followed. -/
theorem claim_c3_retry_bound {E R : Type} (err : ℕ → E) (maxRetries : ℕ)
    (hpos : 1 ≤ maxRetries) :
    safe_crawl (E := E) (R := R) (fun i => Except.error (err i)) maxRetries =
      (maxRetries, List.replicate (maxRetries - 1) 20,
        some (Except.error (err (maxRetries - 1)))) ∧
    ∀ fs : List (ℕ → Except E R),
      crawl_run_result maxRetries ((fun i => Except.error (err i)) :: fs) =
        some (Except.error (err (maxRetries - 1))) := by
  have h := safe_crawl_go_all_error (R := R) err maxRetries maxRetries 0
    (by omega) (by omega)
  constructor
  · exact h
  · intro fs
    have h22 : (safe_crawl (E := E) (R := R) (fun i => Except.error (err i))
        maxRetries).2.2 = some (Except.error (err (maxRetries - 1))) := by
      rw [safe_crawl, h]
    simp [crawl_run_result, h22]

/-- Witness for C3 at the default `max_retries = 5`: exactly five
attempts, four 20-second sleeps, and the fault propagated to the run. -/
theorem claim_c3_retry_bound_witness :
    safe_crawl (E := Unit) (R := Unit) (fun _ => Except.error ()) default_max_retries =
      (5, [20, 20, 20, 20], some (Except.error ())) ∧
    crawl_run_result (E := Unit) (R := Unit) default_max_retries
      [fun _ => Except.error ()] = some (Except.error ()) := by
  have h := claim_c3_retry_bound (E := Unit) (R := Unit) (fun _ => ()) 5 (by decide)
  constructor
  · simpa [default_max_retries] using h.1
  · simpa [default_max_retries] using h.2 []

/-! ## Unit-not-available skipping (`ForexDataCSVCrawler.crawl`) -/

/-- Outcome of one `scrapper.get_data(ticker)` call: success with the
unit's records, a `TickerNotAvailableException`, or any other fault. -/
inductive FetchOutcome (R : Type) where
  | ok (records : R)
  | tickerNotAvailable
  | fault
deriving DecidableEq

/-- Embedding of the per-ticker loop of `ForexDataCSVCrawler.crawl`:

    for ticker in tickers_to_crawl:
        try: scrapper.get_data(ticker)
        except TickerNotAvailableException: continue

A successful `get_data` contributes the ticker's records; a
`TickerNotAvailableException` skips the ticker; any other exception
propagates, ending the batch (the Boolean flag records the fault, records
of tickers after the fault are not produced). -/
def forex_crawl_batch {α R : Type} (get_data : α → FetchOutcome R) :
    List α → List (α × R) × Bool
  | [] => ([], false)
  | t :: ts =>
    match get_data t with
    | FetchOutcome.ok r =>
      let rest := forex_crawl_batch get_data ts
      ((t, r) :: rest.1, rest.2)
    | FetchOutcome.tickerNotAvailable => forex_crawl_batch get_data ts
    | FetchOutcome.fault => ([], true)

/-- A batch of the forex crawler viewed as a fetch function for the retry
wrapper: faulting iff the batch loop faulted. -/
def forex_batch_as_fetch {α R : Type} (get_data : α → FetchOutcome R)
    (batch : List α) : ℕ → Except Unit (List (α × R)) :=
  fun _ =>
    if (forex_crawl_batch get_data batch).2 then Except.error ()
    else Except.ok (forex_crawl_batch get_data batch).1

theorem safe_crawl_first_ok {E R : Type} {fetch : ℕ → Except E R} {r : R}
    (h : fetch 0 = Except.ok r) {maxRetries : ℕ} (hpos : 1 ≤ maxRetries) :
    safe_crawl fetch maxRetries = (1, [], some (Except.ok r)) := by
  obtain ⟨m, rfl⟩ : ∃ m, maxRetries = m + 1 := ⟨maxRetries - 1, by omega⟩
  simp [safe_crawl, safe_crawl_go, h]

theorem forex_crawl_batch_no_fault {α R : Type}
    (get_data : α → FetchOutcome R) :
    ∀ b : List α, (∀ t ∈ b, get_data t ≠ FetchOutcome.fault) →
      (forex_crawl_batch get_data b).2 = false := by
  intro b
  induction b with
  | nil => intro _; rfl
  | cons t ts ih =>
    intro hb
    have ht := hb t (List.mem_cons_self _ _)
    have hts : ∀ u ∈ ts, get_data u ≠ FetchOutcome.fault :=
      fun u hu => hb u (List.mem_cons_of_mem _ hu)
    cases hgd : get_data t with
    | ok r => simp [forex_crawl_batch, hgd, ih hts]
    | tickerNotAvailable => simp [forex_crawl_batch, hgd, ih hts]
    | fault => exact absurd hgd ht

/-- C6: if one ticker of a batch raises `TickerNotAvailableException` while
every other ticker succeeds, the forex crawler skips that ticker and the
batch completes: the collected records are exactly those of the other
tickers in order, the unavailable ticker's records are absent, the batch
does not fault, and running it under the bounded-retry wrapper takes one
single attempt (no retry consumed).  Moreover a batch whose tickers never
raise anything but `TickerNotAvailableException` never faults at batch
level. -/
theorem claim_c6_unit_not_available_skipped {α R : Type} [DecidableEq α]
    (get_data : α → FetchOutcome R) (batch : List α) (t0 : α) (recs : α → R)
    (h0 : get_data t0 = FetchOutcome.tickerNotAvailable)
    (hok : ∀ t ∈ batch, t ≠ t0 → get_data t = FetchOutcome.ok (recs t)) :
    forex_crawl_batch get_data batch =
      ((batch.filter (fun t => decide (t ≠ t0))).map (fun t => (t, recs t)),
        false) ∧
    (∀ maxRetries, 1 ≤ maxRetries →
      safe_crawl (forex_batch_as_fetch get_data batch) maxRetries =
        (1, [],
          some (Except.ok ((batch.filter (fun t => decide (t ≠ t0))).map
            (fun t => (t, recs t)))))) ∧
    (∀ (g : α → FetchOutcome R) (b : List α),
      (∀ t ∈ b, g t ≠ FetchOutcome.fault) →
      (forex_crawl_batch g b).2 = false) := by
  have hmain : forex_crawl_batch get_data batch =
      ((batch.filter (fun t => decide (t ≠ t0))).map (fun t => (t, recs t)),
        false) := by
    induction batch with
    | nil => rfl
    | cons t ts ih =>
      have hts : ∀ u ∈ ts, u ≠ t0 → get_data u = FetchOutcome.ok (recs u) :=
        fun u hu => hok u (List.mem_cons_of_mem _ hu)
      by_cases ht : t = t0
      · subst ht
        simp [forex_crawl_batch, h0, ih hts]
      · have := hok t (List.mem_cons_self _ _) ht
        simp [forex_crawl_batch, this, ih hts, ht]
  refine ⟨hmain, ?_, forex_crawl_batch_no_fault⟩
  intro maxRetries hpos
  have hfetch : forex_batch_as_fetch get_data batch 0 =
      Except.ok ((batch.filter (fun t => decide (t ≠ t0))).map
        (fun t => (t, recs t))) := by
    unfold forex_batch_as_fetch
    rw [hmain]
    simp
  exact safe_crawl_first_ok hfetch hpos

/-- Witness for C6: batch `[0, 1, 2]` with ticker `1` unavailable; the
batch yields the records of `0` and `2`, and a single retry-loop
attempt. -/
theorem claim_c6_unit_not_available_skipped_witness :
    forex_crawl_batch
        (fun t : ℕ => if t = 1 then FetchOutcome.tickerNotAvailable
          else FetchOutcome.ok t) [0, 1, 2] = ([(0, 0), (2, 2)], false) ∧
    safe_crawl (forex_batch_as_fetch
        (fun t : ℕ => if t = 1 then FetchOutcome.tickerNotAvailable
          else FetchOutcome.ok t) [0, 1, 2]) 5 =
      (1, [], some (Except.ok [(0, 0), (2, 2)])) := by
  have h := claim_c6_unit_not_available_skipped
    (fun t : ℕ => if t = 1 then FetchOutcome.tickerNotAvailable
      else FetchOutcome.ok t) [0, 1, 2] 1 (fun t => t)
    (by decide) (by decide)
  constructor
  · simpa using h.1
  · simpa using h.2.1 5 (by decide)

/-! ## Removal happens at selection time (both `crawl` methods) -/

/-- Embedding of the state effect of one `crawl` call of either crawler:
the sampled batch is removed from the remaining list at selection time
(`_remove_dates` is called before `_safe_crawl` starts fetching,
`_remove_tickers` before the scrapper loop); the fetch outcome is produced
afterwards and the removal does not depend on it. -/
def crawl_round {α E R : Type} [DecidableEq α] (remaining batch : List α)
    (fetch : List α → Except E R) : List α × Except E R :=
  (remove_dates remaining batch, fetch batch)

/-- C9: the sampled batch leaves the remaining domain at selection time:
the post-`crawl` remaining list is `remove_dates` of the batch whatever
the fetch does (in particular it is the same for a failing and for a
succeeding fetch); consequently `percentage_done` never decreases from one
batch to the next even when the batch's fetch fails, a unit of a sampled
batch is not in the remaining domain afterwards (so never re-queued), and
no later batch of the same run contains a unit of an earlier batch. -/
theorem claim_c9_remove_at_selection {α E R : Type} [DecidableEq α] :
    (∀ (rem batch : List α) (f g : List α → Except E R),
      (crawl_round rem batch f).1 = remove_dates rem batch ∧
      (crawl_round rem batch f).1 = (crawl_round rem batch g).1) ∧
    (∀ (n : ℕ) (rem batch : List α), 0 < n →
      percentage_done n rem ≤ percentage_done n (remove_dates rem batch)) ∧
    (∀ (rem batch : List α), ∀ a ∈ batch, a ∉ remove_dates rem batch) ∧
    (∀ (maxWhole lo hi : ℕ) (rem batch : List α) (batches : List (List α)),
      CrawlRun maxWhole lo hi rem (batch :: batches) →
      ∀ b ∈ batches, ∀ a ∈ batch, a ∉ b) := by
  refine ⟨fun rem batch f g => ⟨rfl, rfl⟩, ?_, ?_, ?_⟩
  · intro n rem batch hn
    unfold percentage_done
    have hc : (0 : ℚ) < n := by exact_mod_cast hn
    rw [div_le_div_iff_of_pos_right hc]
    have hlen : ((remove_dates rem batch).length : ℚ) ≤ (rem.length : ℚ) := by
      exact_mod_cast remove_dates_length_le rem batch
    linarith
  · intro rem batch a ha hmem
    exact (mem_remove_dates.mp hmem).2 ha
  · intro maxWhole lo hi rem batch batches hrun
    exact crawlRun_later_disjoint hrun

/-- Witness for C9 on the concrete domain `[0, 1, 2]` with batch
`[0, 1]`. -/
theorem claim_c9_remove_at_selection_witness :
    (crawl_round ([0, 1, 2] : List ℕ) [0, 1]
      (fun _ => (Except.error () : Except Unit Unit))).1 = [2] ∧
    percentage_done 3 ([0, 1, 2] : List ℕ) ≤
      percentage_done 3 (remove_dates ([0, 1, 2] : List ℕ) [0, 1]) ∧
    (0 : ℕ) ∉ remove_dates ([0, 1, 2] : List ℕ) [0, 1] := by
  have h := claim_c9_remove_at_selection (α := ℕ) (E := Unit) (R := Unit)
  refine ⟨?_, h.2.1 3 [0, 1, 2] [0, 1] (by decide),
    h.2.2.1 [0, 1, 2] [0, 1] 0 (by decide)⟩
  have h1 := (h.1 [0, 1, 2] [0, 1] (fun _ => Except.error ())
    (fun _ => Except.error ())).1
  rw [h1]
  decide

/-- C10: `_remove_dates` / `_remove_tickers` remove by value, not by
position: after removing a batch, the count of a unit drops to zero
whenever the unit equals any sampled batch member.  Hence, when the
caller-supplied unit list contains duplicates, the crawler can process a
duplicated unit fewer times than it occurs (witnessed by a reachable run
below), and the multiset exactly-once partition property is guaranteed
under the precondition that all units are pairwise distinct. -/
theorem claim_c10_removal_by_value {α : Type} [DecidableEq α] :
    (∀ (rem batch : List α) (a : α),
      (remove_dates rem batch).count a =
        if a ∈ batch then 0 else rem.count a) ∧
    (∃ (dom : List ℕ) (batches : List (List ℕ)),
      ¬dom.Nodup ∧ CrawlRun 5 2 5 dom batches ∧
      ∃ a, batches.flatten.count a < dom.count a) ∧
    (∀ (maxWhole lo hi : ℕ) (dom : List α) (batches : List (List α)),
      dom.Nodup → CrawlRun maxWhole lo hi dom batches →
      batches.flatten ~ dom) := by
  refine ⟨count_remove_dates, ?_,
    fun maxWhole lo hi dom bs hnd hrun => crawlRun_join_perm hrun hnd⟩
  refine ⟨[0, 1, 2, 3, 4, 5, 0], [[0, 1], [2, 3, 4, 5]], by decide, ?_,
    ⟨0, by decide⟩⟩
  apply CrawlRun.step _ _ _ (by decide) (by decide)
  have h1 : remove_dates ([0, 1, 2, 3, 4, 5, 0] : List ℕ) [0, 1] =
      [2, 3, 4, 5] := by decide
  rw [h1]
  apply CrawlRun.step _ _ _ (by decide) (by decide)
  have h2 : remove_dates ([2, 3, 4, 5] : List ℕ) [2, 3, 4, 5] = [] := by decide
  rw [h2]
  exact CrawlRun.done

/-- Witness for C10: a duplicated domain loses a copy of unit 0, and a
duplicate-free domain is partitioned. -/
theorem claim_c10_removal_by_value_witness :
    (remove_dates ([0, 1, 0, 2] : List ℕ) [0]).count 0 =
      (if (0 : ℕ) ∈ ([0] : List ℕ) then 0 else ([0, 1, 0, 2] : List ℕ).count 0) ∧
    ([[0, 1]] : List (List ℕ)).flatten ~ [0, 1] := by
  have h := claim_c10_removal_by_value (α := ℕ)
  have hrun : CrawlRun 5 2 5 ([0, 1] : List ℕ) [[0, 1]] := by
    apply CrawlRun.step _ _ _ (by decide) (by decide)
    have h1 : remove_dates ([0, 1] : List ℕ) [0, 1] = [] := by decide
    rw [h1]
    exact CrawlRun.done
  exact ⟨h.1 [0, 1, 0, 2] [0] 0, h.2.2 5 2 5 [0, 1] [[0, 1]] (by decide) hrun⟩

/-! ## Date-window generation (`EconomicEventsClient.create_date_ranges`)

Calendar dates are modelled as integers counting days, so
`timedelta(days=6)` is `+ 6` and `timedelta(weeks=1)` is `+ 7`. -/

/-- Embedding of the loop of `create_date_ranges`:

    while start_date < end_date:
        date_pairs.append((start_date, start_date + timedelta(days=6)))
        start_date += timedelta(weeks=1)
-/
def create_date_ranges (start_date end_date : ℤ) : List (ℤ × ℤ) :=
  if start_date < end_date then
    (start_date, start_date + 6) :: create_date_ranges (start_date + 7) end_date
  else []
termination_by (end_date - start_date).toNat
decreasing_by
  simp_wf
  omega

/-- Embedding of the default handling of `create_date_ranges`: a missing
`start_date` becomes `today - timedelta(weeks=5 * 52)` (260 weeks, "5
years ago"), a missing `end_date` becomes `today`. -/
def create_date_ranges_with_defaults (today : ℤ)
    (startDate? endDate? : Option ℤ) : List (ℤ × ℤ) :=
  let s := match startDate? with
    | none => today - 7 * (5 * 52)
    | some s0 => s0
  let e := match endDate? with
    | none => today
    | some e0 => e0
  create_date_ranges s e

/-- Closed form: the generated list is the windows
`[start + 7k, start + 7k + 6]` for `k < ⌈(end - start) / 7⌉`. -/
theorem create_date_ranges_eq_map (s e : ℤ) :
    create_date_ranges s e =
      (List.range (((e - s).toNat + 6) / 7)).map
        (fun (k : ℕ) => (s + 7 * (k : ℤ), s + 7 * (k : ℤ) + 6)) := by
  generalize hn : (e - s).toNat = n
  induction n using Nat.strong_induction_on generalizing s with
  | _ n ih =>
  rw [create_date_ranges]
  by_cases h : s < e
  · rw [if_pos h]
    have hrec := ih (e - (s + 7)).toNat (by omega) (s + 7) rfl
    have hcount : (n + 6) / 7 = ((e - (s + 7)).toNat + 6) / 7 + 1 := by omega
    rw [hrec, hcount, List.range_succ_eq_map, List.map_cons, List.map_map]
    congr 1
    · simp
    · apply List.map_congr_left
      intro k hk
      simp only [Function.comp_apply]
      push_cast
      rw [Prod.mk.injEq]
      constructor <;> ring
  · rw [if_neg h]
    have hz : n = 0 := by omega
    simp [hz]

/-- C4: for `start < end` the generated windows cover `[start, end)` with
no gaps; every window is of the form `[start + 7k, start + 7k + 6]` (at
most 7 days, inclusive) with its start before `end`, generated walking
forward in 7-day steps from `start`; omitted bounds default to
`today - 260 weeks` and `today`; and the last window may extend past
`end` (the loop guard only compares the next window's start with
`end`). -/
theorem claim_c4_date_windows (s e : ℤ) :
    (∀ p ∈ create_date_ranges s e, ∃ k : ℕ,
      p = (s + 7 * (k : ℤ), s + 7 * (k : ℤ) + 6) ∧ s + 7 * (k : ℤ) < e) ∧
    (∀ d : ℤ, s ≤ d → d < e →
      ∃ p ∈ create_date_ranges s e, p.1 ≤ d ∧ d ≤ p.2) ∧
    (∀ today : ℤ, create_date_ranges_with_defaults today none none =
      create_date_ranges (today - 7 * (5 * 52)) today) ∧
    (∃ s0 e0 : ℤ, s0 < e0 ∧ ∃ p ∈ create_date_ranges s0 e0, e0 ≤ p.2) := by
  refine ⟨?_, ?_, fun today => rfl, ?_⟩
  · intro p hp
    rw [create_date_ranges_eq_map] at hp
    obtain ⟨k, hk, rfl⟩ := List.mem_map.mp hp
    rw [List.mem_range] at hk
    exact ⟨k, rfl, by omega⟩
  · intro d hsd hde
    rw [create_date_ranges_eq_map]
    set k : ℕ := (d - s).toNat / 7 with hkdef
    refine ⟨(s + 7 * (k : ℤ), s + 7 * (k : ℤ) + 6),
      List.mem_map_of_mem _ (List.mem_range.mpr (by omega)), by omega, by omega⟩
  · refine ⟨0, 1, by norm_num, (0, 6), ?_, by norm_num⟩
    rw [create_date_ranges_eq_map]
    decide

/-- Witness for C4: day 7 of the span `[0, 10)` is covered, and the
defaults for `today = 0` are `start = -1820` (260 weeks ago) and
`end = 0`. -/
theorem claim_c4_date_windows_witness :
    (∃ p ∈ create_date_ranges 0 10, p.1 ≤ (7 : ℤ) ∧ (7 : ℤ) ≤ p.2) ∧
    create_date_ranges_with_defaults 0 none none =
      create_date_ranges (-1820) 0 := by
  have h := claim_c4_date_windows 0 10
  refine ⟨h.2.1 7 (by norm_num) (by norm_num), ?_⟩
  simpa using h.2.2.1 0

/-- C7 counterexample: for `start = 0`, `end = 14` the generated windows
are `[0, 6]` and `[7, 13]`; these consecutive windows share no day, so
they do not overlap (in particular not by one day). -/
theorem claim_c7_counterexample :
    create_date_ranges 0 14 = [(0, 6), (7, 13)] ∧
    ¬∃ d : ℤ, ((0 : ℤ) ≤ d ∧ d ≤ 6) ∧ ((7 : ℤ) ≤ d ∧ d ≤ 13) := by
  constructor
  · rw [create_date_ranges_eq_map]
    decide
  · rintro ⟨d, ⟨h1, h2⟩, h3, h4⟩
    omega

/-- C7 amended: consecutive windows generated by `create_date_ranges` are
adjacent, not overlapping: each next window starts exactly one day after
the previous window ends (`w2.1 = w1.2 + 1`), so consecutive windows share
no day. -/
theorem claim_c7_windows_adjacent (s e : ℤ) :
    (create_date_ranges s e).Chain'
      (fun w1 w2 => w2.1 = w1.2 + 1 ∧ w1.2 < w2.1) := by
  rw [create_date_ranges_eq_map, List.chain'_map, List.chain'_iff_get]
  intro i hi
  simp only [List.get_eq_getElem, List.getElem_range]
  push_cast
  constructor <;> omega

/-! ## Canonical Event records (`economic_events/models.py`) and the
store upsert (`EconomicEventsClient.upsert_events`)

Datetimes are modelled as integers. -/

/-- Embedding of the `CountrySubject` dataclass. -/
structure CountrySubject where
  name : String
  currency : String
deriving DecidableEq

/-- Embedding of the `Event` pydantic model. -/
structure Event where
  timestamp : ℤ
  title : String
  subject : CountrySubject
  actual : String
  previous : String
  consensus : String
  forecast : String
  sentiment : ℤ
  created_at : ℤ
  updated_at : ℤ
deriving DecidableEq

/-- Embedding of `Event.updated_at_signal`, the `model_validator` run on
each validation of an `Event`: it sets `updated_at` to the current
time. -/
def updated_at_signal (now : ℤ) (e : Event) : Event :=
  { e with updated_at := now }

/-- The filter document used by `upsert_events`:
`{"title": ..., "timestamp": ..., "subject.name": ...}`, the Event
natural key. -/
def event_filter (e : Event) : String × ℤ × String :=
  (e.title, e.timestamp, e.subject.name)

/-- Modelled from the spec: the first stored document matching a natural
key.  (`MongoDBRepository`, `core/repository/mongo.py`, is not under
`src/`; the spec's §6 Store contract keys documents by the natural
key.) -/
def find_first : List Event → String × ℤ × String → Option Event
  | [], _ => none
  | d :: ds, filt =>
    if event_filter d = filt then some d else find_first ds filt

/-- The fields of a pymongo `UpdateResult` read by `upsert_events`. -/
structure UpdateResult where
  upserted_id : Option ℕ
  modified_count : ℕ
deriving DecidableEq

/-- Modelled from the spec: `MongoDBRepository.update_one(filter, doc,
upsert=True)` (the repository implementation is not under `src/`; spec §6
gives `upsert_by_key(key, document) -> {inserted|updated}`).  The first
document matching the filter is replaced by `doc`; `modified_count = 1`
when the fields differ and `0` when the stored document is identical;
with no match the document is inserted and `upserted_id` is set. -/
def update_one : List Event → String × ℤ × String → Event →
    UpdateResult × List Event
  | [], _, doc => ({ upserted_id := some 0, modified_count := 0 }, [doc])
  | d :: ds, filt, doc =>
    if event_filter d = filt then
      if d = doc then ({ upserted_id := none, modified_count := 0 }, d :: ds)
      else ({ upserted_id := none, modified_count := 1 }, doc :: ds)
    else
      let res := update_one ds filt doc
      (res.1, d :: res.2)

/-- Embedding of `EconomicEventsClient.upsert_events`: iterate the
events; each is upserted keyed by `(title, timestamp, subject.name)`;
`inserted` counts results with `upserted_id is not None`, else `updated`
counts `modified_count > 0`; when the repository call raises (the
`except` branch, driven here by the oracle `fault` on the event's
position `idx`), `error` counts it and the store is untouched.  Returns
`((inserted, updated, error), store)`. -/
def upsert_events (fault : ℕ → Bool) :
    List Event → List Event → ℕ → (ℕ × ℕ × ℕ) × List Event
  | [], store, _ => ((0, 0, 0), store)
  | ev :: evs, store, idx =>
    if fault idx then
      let rest := upsert_events fault evs store (idx + 1)
      ((rest.1.1, rest.1.2.1, rest.1.2.2 + 1), rest.2)
    else
      let res := update_one store (event_filter ev) ev
      let inc : ℕ × ℕ × ℕ :=
        if res.1.upserted_id ≠ none then (1, 0, 0)
        else if 0 < res.1.modified_count then (0, 1, 0)
        else (0, 0, 0)
      let rest := upsert_events fault evs res.2 (idx + 1)
      ((inc.1 + rest.1.1, inc.2.1 + rest.1.2.1, inc.2.2 + rest.1.2.2), rest.2)

theorem update_one_no_match (filt : String × ℤ × String) (doc : Event) :
    ∀ store : List Event, (∀ d ∈ store, event_filter d ≠ filt) →
      update_one store filt doc =
        ({ upserted_id := some 0, modified_count := 0 }, store ++ [doc]) := by
  intro store
  induction store with
  | nil => intro _; rfl
  | cons d ds ih =>
    intro h
    have hd : event_filter d ≠ filt := h d (List.mem_cons_self _ _)
    have hds := ih (fun x hx => h x (List.mem_cons_of_mem _ hx))
    simp [update_one, hd, hds]

theorem update_one_match_ne (filt : String × ℤ × String) (doc : Event) :
    ∀ (store : List Event) (d : Event), find_first store filt = some d →
      d ≠ doc →
      (update_one store filt doc).1 =
        { upserted_id := none, modified_count := 1 } := by
  intro store
  induction store with
  | nil => intro d h; simp [find_first] at h
  | cons d0 ds ih =>
    intro d h hne
    by_cases hf : event_filter d0 = filt
    · simp only [find_first, hf, if_true, Option.some.injEq] at h
      subst h
      simp [update_one, hf, hne]
    · simp only [find_first, hf, if_false] at h
      simp [update_one, hf, ih d h hne]

theorem update_one_match_store (filt : String × ℤ × String) (doc : Event)
    (hdoc : event_filter doc = filt) :
    ∀ (store : List Event) (d : Event), find_first store filt = some d →
      d ≠ doc →
      find_first (update_one store filt doc).2 filt = some doc := by
  intro store
  induction store with
  | nil => intro d h; simp [find_first] at h
  | cons d0 ds ih =>
    intro d h hne
    by_cases hf : event_filter d0 = filt
    · simp only [find_first, hf, if_true, Option.some.injEq] at h
      subst h
      simp [update_one, hf, hne, find_first, hdoc]
    · simp only [find_first, hf, if_false] at h
      simp [update_one, hf, find_first, ih d h hne]

theorem find_first_append_no_match (filt : String × ℤ × String)
    (l2 : List Event) :
    ∀ l1 : List Event, (∀ d ∈ l1, event_filter d ≠ filt) →
      find_first (l1 ++ l2) filt = find_first l2 filt := by
  intro l1
  induction l1 with
  | nil => intro _; rfl
  | cons d ds ih =>
    intro h
    have hd : event_filter d ≠ filt := h d (List.mem_cons_self _ _)
    simp [find_first, hd, ih (fun x hx => h x (List.mem_cons_of_mem _ hx))]

theorem upsert_events_single (ev : Event) (st : List Event) :
    upsert_events (fun _ => false) [ev] st 0 =
      ((if (update_one st (event_filter ev) ev).1.upserted_id ≠ none
          then (1, 0, 0)
        else if 0 < (update_one st (event_filter ev) ev).1.modified_count
          then (0, 1, 0)
        else (0, 0, 0)),
        (update_one st (event_filter ev) ev).2) := by
  by_cases h1 : (update_one st (event_filter ev) ev).1.upserted_id = none
  · by_cases h2 : 0 < (update_one st (event_filter ev) ev).1.modified_count
    · simp [upsert_events, h1, h2]
    · simp [upsert_events, h1, h2]
  · simp [upsert_events, h1]

/-- C1: upserting a fresh event (no stored document with its natural key)
counts `inserted = 1, updated = 0`; upserting a second event with the
same natural key but differing fields counts `inserted = 0, updated = 1`
(not a second insert) and leaves that second event's fields as the stored
document for the key.  `updated_at_signal` guarantees two ingests at
different times differ (and never touches the key).  In general a no-match
upsert counts `inserted` and a differing-match upsert counts
`updated`. -/
theorem claim_c1_upsert_idempotent (e1 e2 : Event) (store : List Event)
    (hkey : event_filter e2 = event_filter e1)
    (hne : e2 ≠ e1)
    (hstore : ∀ d ∈ store, event_filter d ≠ event_filter e1) :
    (upsert_events (fun _ => false) [e1] store 0).1 = (1, 0, 0) ∧
    (upsert_events (fun _ => false) [e2]
      (upsert_events (fun _ => false) [e1] store 0).2 0).1 = (0, 1, 0) ∧
    find_first (upsert_events (fun _ => false) [e2]
        (upsert_events (fun _ => false) [e1] store 0).2 0).2
      (event_filter e2) = some e2 ∧
    (∀ (t1 t2 : ℤ) (ev : Event), t1 ≠ t2 →
      updated_at_signal t2 ev ≠ updated_at_signal t1 ev ∧
      event_filter (updated_at_signal t2 ev) = event_filter ev) ∧
    (∀ (ev : Event) (st : List Event),
      (∀ d ∈ st, event_filter d ≠ event_filter ev) →
      (upsert_events (fun _ => false) [ev] st 0).1 = (1, 0, 0)) ∧
    (∀ (ev d : Event) (st : List Event),
      find_first st (event_filter ev) = some d → d ≠ ev →
      (upsert_events (fun _ => false) [ev] st 0).1 = (0, 1, 0)) := by
  have hinsert : ∀ (ev : Event) (st : List Event),
      (∀ d ∈ st, event_filter d ≠ event_filter ev) →
      upsert_events (fun _ => false) [ev] st 0 = ((1, 0, 0), st ++ [ev]) := by
    intro ev st hst
    rw [upsert_events_single, update_one_no_match (event_filter ev) ev st hst]
    simp
  have hupdate : ∀ (ev d : Event) (st : List Event),
      find_first st (event_filter ev) = some d → d ≠ ev →
      (upsert_events (fun _ => false) [ev] st 0).1 = (0, 1, 0) := by
    intro ev d st hfind hne'
    rw [upsert_events_single]
    rw [update_one_match_ne (event_filter ev) ev st d hfind hne']
    simp
  have h1 : upsert_events (fun _ => false) [e1] store 0 =
      ((1, 0, 0), store ++ [e1]) := hinsert e1 store hstore
  have hfind1 : find_first (store ++ [e1]) (event_filter e2) = some e1 := by
    rw [hkey, find_first_append_no_match (event_filter e1) [e1] store hstore]
    simp [find_first]
  refine ⟨by rw [h1], ?_, ?_, ?_, fun ev st hst => by rw [hinsert ev st hst],
    hupdate⟩
  · rw [h1]
    exact hupdate e2 e1 (store ++ [e1]) hfind1 (Ne.symm hne)
  · rw [h1]
    have hstore2 : (upsert_events (fun _ => false) [e2] (store ++ [e1]) 0).2 =
        (update_one (store ++ [e1]) (event_filter e2) e2).2 := by
      rw [upsert_events_single]
    rw [hstore2]
    exact update_one_match_store (event_filter e2) e2 rfl (store ++ [e1]) e1
      hfind1 (Ne.symm hne)
  · intro t1 t2 ev hne'
    refine ⟨?_, rfl⟩
    intro hcontra
    have := congrArg Event.updated_at hcontra
    simp [updated_at_signal] at this
    exact hne' this.symm

/-- The spec's example event (`CPI m/m`, United States), parametrised by
the `actual` value and the `updated_at` stamp the validator would set. -/
def sample_event (actualValue : String) (updatedAt : ℤ) : Event :=
  { timestamp := 1704980000, title := "CPI m/m",
    subject := { name := "United States", currency := "USD" },
    actual := actualValue, previous := "0.2", consensus := "0.3",
    forecast := "0.3", sentiment := 1, created_at := 0,
    updated_at := updatedAt }

/-- Witness for C1: ingesting the CPI event into an empty store counts
`(1,0,0)`; re-ingesting it with a changed `actual` (and refreshed
`updated_at`) counts `(0,1,0)`, and the stored document is the second
write. -/
theorem claim_c1_upsert_idempotent_witness :
    (upsert_events (fun _ => false) [sample_event "0.3" 0] [] 0).1 =
      (1, 0, 0) ∧
    (upsert_events (fun _ => false) [sample_event "0.4" 1]
      (upsert_events (fun _ => false) [sample_event "0.3" 0] [] 0).2 0).1 =
      (0, 1, 0) ∧
    find_first (upsert_events (fun _ => false) [sample_event "0.4" 1]
        (upsert_events (fun _ => false) [sample_event "0.3" 0] [] 0).2 0).2
      (event_filter (sample_event "0.4" 1)) = some (sample_event "0.4" 1) := by
  have h := claim_c1_upsert_idempotent (sample_event "0.3" 0)
    (sample_event "0.4" 1) [] rfl (by decide) (by intro d hd; simp at hd)
  exact ⟨h.1, h.2.1, h.2.2.1⟩

/-! ## Per-batch counters in `update_for_dates` -/

/-- Embedding of the body of one `while not crawler.iteration_done`
iteration of `EconomicEventsClient.update_for_dates`: the counters are
reset (`inserted = updated = error = 0`), then each `EventList` of the
batch returned by `crawler.crawl()` is upserted and the per-list deltas
are added into the batch counters. -/
def batch_upsert (fault : ℕ → Bool) :
    List (List Event) → List Event → (ℕ × ℕ × ℕ) × List Event
  | [], store => ((0, 0, 0), store)
  | l :: ls, store =>
    let res := upsert_events fault l store 0
    let rest := batch_upsert fault ls res.2
    ((res.1.1 + rest.1.1, res.1.2.1 + rest.1.2.1, res.1.2.2 + rest.1.2.2),
      rest.2)

/-- Embedding of the whole `update_for_dates` batch loop: one entry of
`batches` per `crawl()` result.  It returns the list of per-batch counter
triples in the order they are logged
(`logger.info(f"New events: ...")`) and the final store; the Python
method itself returns `None`, so no counters reach the caller. -/
def update_for_dates_log (fault : ℕ → Bool) :
    List (List (List Event)) → List Event → List (ℕ × ℕ × ℕ) × List Event
  | [], store => ([], store)
  | b :: bs, store =>
    let res := batch_upsert fault b store
    let rest := update_for_dates_log fault bs res.2
    (res.1 :: rest.1, rest.2)

/-- C5 counterexample: a run of two batches, each inserting one fresh
event, logs `(1,0,0)` after each batch — the counters visible after the
final batch are `(1,0,0)`, not the run-accumulated `(2,0,0)` the claim
asserts (and `update_for_dates` returns `None`, not counters). -/
theorem claim_c5_counterexample :
    (update_for_dates_log (fun _ => false)
        [[[sample_event "0.3" 0]],
          [[{ sample_event "0.5" 1 with title := "GDP q/q" }]]] []).1 =
      [(1, 0, 0), (1, 0, 0)] ∧
    (update_for_dates_log (fun _ => false)
        [[[sample_event "0.3" 0]],
          [[{ sample_event "0.5" 1 with title := "GDP q/q" }]]] []).1.getLast? =
      some (1, 0, 0) ∧
    ((1, 0, 0) : ℕ × ℕ × ℕ) ≠ (2, 0, 0) := by
  refine ⟨?_, ?_, by decide⟩ <;> decide

/-- C5 amended: the counters of `update_for_dates` are per-batch, not
per-run: they are reset to zero at the start of every batch iteration and
accumulate only the per-`EventList` deltas of that batch; accordingly the
log splits along any division of the run into two parts (no counter state
crosses a batch boundary), one triple is logged per batch, and a
single-batch run logs exactly that batch's delta.  (`update_for_dates`
returns `None`, so the logged triples are the only counter output.) -/
theorem claim_c5_counters_per_batch (fault : ℕ → Bool)
    (bs1 bs2 : List (List (List Event))) (store : List Event) :
    (update_for_dates_log fault (bs1 ++ bs2) store).1 =
      (update_for_dates_log fault bs1 store).1 ++
        (update_for_dates_log fault bs2
          (update_for_dates_log fault bs1 store).2).1 ∧
    (update_for_dates_log fault (bs1 ++ bs2) store).1.length =
      bs1.length + bs2.length ∧
    (∀ (b : List (List Event)) (st : List Event),
      update_for_dates_log fault [b] st =
        ([(batch_upsert fault b st).1], (batch_upsert fault b st).2)) := by
  have happ : ∀ (l1 : List (List (List Event))) (st : List Event),
      update_for_dates_log fault (l1 ++ bs2) st =
        ((update_for_dates_log fault l1 st).1 ++
          (update_for_dates_log fault bs2
            (update_for_dates_log fault l1 st).2).1,
          (update_for_dates_log fault bs2
            (update_for_dates_log fault l1 st).2).2) := by
    intro l1
    induction l1 with
    | nil => intro st; simp [update_for_dates_log]
    | cons b bs ih => intro st; simp [update_for_dates_log, ih]
  have hlen : ∀ (l : List (List (List Event))) (st : List Event),
      (update_for_dates_log fault l st).1.length = l.length := by
    intro l
    induction l with
    | nil => intro st; rfl
    | cons b bs ih => intro st; simp [update_for_dates_log, ih]
  refine ⟨?_, ?_, fun b st => by simp [update_for_dates_log]⟩
  · rw [happ bs1 store]
  · rw [hlen]
    simp

/-! ## Zero-unit domains (`__init__` / `iteration_done`) -/

/-- Embedding of `EconomicEventsCrawler.__init__`: `date_ranges` defaults
to `None`, and `_date_ranges` / `_original_dates_count` are assigned only
under `if date_ranges:`, which is falsy for `None` and for the empty
list.  A `none` component models an attribute that was never assigned
(reading it raises `AttributeError`). -/
def events_crawler_init (dateRanges : Option (List (ℤ × ℤ))) :
    Option (List (ℤ × ℤ)) × Option ℕ :=
  match dateRanges with
  | some dr => if dr ≠ [] then (some dr, some dr.length) else (none, none)
  | none => (none, none)

/-- Reading `EconomicEventsCrawler.iteration_done`: `len(self._date_ranges)
== 0` when `_date_ranges` was assigned, `none` (an `AttributeError`)
otherwise. -/
def events_iteration_done (dateRanges : Option (List (ℤ × ℤ))) :
    Option Bool :=
  dateRanges.map (fun l => decide (l.length = 0))

/-- Embedding of `ForexDataCSVCrawler.__init__`: `_tickers` and
`_original_tickers_count` are always assigned. -/
def forex_crawler_init (tickers : List String) : List String × ℕ :=
  (tickers, tickers.length)

/-- C8: for the forex crawler a zero-unit domain is exhausted immediately:
`iteration_done` is `True` and no batch is ever drawn (the `while
self._tickers:` loop never runs, so no fetch occurs).  For the events
crawler however, constructing with an empty `date_ranges` list leaves
`_date_ranges` and `_original_dates_count` unassigned (the `if
date_ranges:` guard is falsy for `[]`), so reading `iteration_done`
raises `AttributeError` instead of returning `True` — exactly what
`update_for_dates` would do first for an empty date span. -/
theorem claim_c8_zero_unit_domain :
    iteration_done ([] : List String) = true ∧
    forex_crawler_init [] = ([], 0) ∧
    (∀ batches : List (List String), CrawlRun 6 3 6 [] batches →
      batches = []) ∧
    events_crawler_init (some []) = (none, none) ∧
    events_iteration_done (events_crawler_init (some [])).1 = none ∧
    events_iteration_done (events_crawler_init (some [])).1 ≠ some true := by
  refine ⟨rfl, rfl, ?_, rfl, rfl, by decide⟩
  intro batches h
  cases h with
  | done => rfl
  | step _ _ _ hne _ _ => exact absurd rfl hne

/-- Witness for C8: the empty forex domain admits only the empty run. -/
theorem claim_c8_zero_unit_domain_witness :
    iteration_done ([] : List String) = true ∧
    ([] : List (List String)) = [] := by
  have h := claim_c8_zero_unit_domain
  exact ⟨h.1, h.2.2.1 [] CrawlRun.done⟩
